import Mathlib

/-!
# Ellipsoid primitive of DecompUtil (`decomp_geometry/ellipsoid.h`)

A shallow embedding of `template <int Dim> struct Ellipsoid` over the real
numbers.  `Vecf<Dim>` is a function `Fin Dim → ℝ`, `Matf<Dim, Dim>` a Mathlib
matrix, `vec_Vecf<Dim>` a list.  The Eigen operations used by the header are
embedded by their defining formulas: `inverse()` is the matrix inverse,
`norm()` the square root of the sum of squares, `normalized()` the vector
divided by its norm (left unchanged when the squared norm is not positive).

The scalar type `decimal_t` is idealised as `ℝ`: arithmetic is exact, and the
comparisons `<` and `<=` of the header are the order of the reals, so the
definitions that compare or take square roots are not executable.  The one
constant of the scalar type that the header reads,
`std::numeric_limits<decimal_t>::max()`, is kept as a parameter.  The loop
counter `yaw` of `sample` ranges over `WithTop ℝ`, whose `⊤` is the `+∞` that
the division `M_PI * 2 / num` yields for `num = 0`.

Rounding is not part of the real-number definitions.  Where the number of
iterations of `sample` depends on it, the loop control is followed a second
time in binary64 arithmetic (`sample_binary64`), with values counted in
multiples of `2 ^ -1074` and every quotient and sum rounded to nearest, ties
to even.  Lemmas that hold only without rounding say so.
-/

open Matrix

namespace Decomp

/-- The vector type `Vecf<Dim>`. -/
abbrev Vecf (Dim : ℕ) := Fin Dim → ℝ

/-- The matrix type `Matf<Dim, Dim>`. -/
abbrev Matf (Dim : ℕ) := Matrix (Fin Dim) (Fin Dim) ℝ

/-- The container `vec_Vecf<Dim>`, an ordered sequence of vectors. -/
abbrev vec_Vecf (Dim : ℕ) := List (Vecf Dim)

/-- Eigen `squaredNorm()`: the sum of the squares of the coefficients. -/
def squaredNorm {Dim : ℕ} (v : Vecf Dim) : ℝ := v ⬝ᵥ v

/-- Eigen `norm()`: the square root of `squaredNorm()`. -/
noncomputable def norm {Dim : ℕ} (v : Vecf Dim) : ℝ := Real.sqrt (squaredNorm v)

/-- Eigen `normalized()`: the vector divided by its norm when the squared norm
is positive, the vector itself otherwise. -/
noncomputable def normalized {Dim : ℕ} (v : Vecf Dim) : Vecf Dim :=
  if 0 < squaredNorm v then (Real.sqrt (squaredNorm v))⁻¹ • v else v

/-- Modelled from the spec: the `Hyperplane<Dim>` of `decomp_geometry/polyhedron.h`,
which is not among the sources; the spec describes it as a point and a normal,
constructed as `Hyperplane<Dim>(point, normal)`. -/
structure Hyperplane (Dim : ℕ) where
  /-- The anchor point, first constructor argument. -/
  p_ : Vecf Dim
  /-- The normal, second constructor argument. -/
  n_ : Vecf Dim

/-- The struct `Ellipsoid<Dim>`: `C_` is the distortion, `d_` the center. -/
structure Ellipsoid (Dim : ℕ) where
  /-- The distortion matrix `C_`. -/
  C_ : Matf Dim
  /-- The center `d_`. -/
  d_ : Vecf Dim

namespace Ellipsoid

variable {Dim : ℕ}

/-- The method `dist`: `(C_.inverse() * (pt - d_)).norm()`. -/
noncomputable def dist (E : Ellipsoid Dim) (pt : Vecf Dim) : ℝ :=
  norm (E.C_⁻¹ *ᵥ (pt - E.d_))

/-- The method `inside`: `dist(pt) <= 1`. -/
noncomputable def inside (E : Ellipsoid Dim) (pt : Vecf Dim) : Bool :=
  decide (E.dist pt ≤ 1)

/-- The method `points_inside`: the loop pushes every `it` of `O` with
`inside(it)` to the back of `new_O`, which starts empty. -/
noncomputable def points_inside (E : Ellipsoid Dim) (O : vec_Vecf Dim) : vec_Vecf Dim :=
  O.foldl (fun new_O it => if E.inside it then new_O ++ [it] else new_O) []

/-- One iteration of the loop of `closest_point` on the state `(pt, min_dist)`. -/
noncomputable def closest_point_step (E : Ellipsoid Dim) (st : Vecf Dim × ℝ) (it : Vecf Dim) :
    Vecf Dim × ℝ :=
  let d := E.dist it
  if d < st.2 then (it, d) else st

/-- The method `closest_point`: `pt` starts as `Vecf<Dim>::Zero()`, `min_dist`
as `std::numeric_limits<decimal_t>::max()`.  The typedef `decimal_t` lives in
`decomp_basis/data_type.h`, which is not among the sources, so the largest
finite value of that type is the parameter `decimal_max`. -/
noncomputable def closest_point (E : Ellipsoid Dim) (decimal_max : ℝ) (O : vec_Vecf Dim) :
    Vecf Dim :=
  (O.foldl E.closest_point_step (0, decimal_max)).1

/-- The direction `C_.inverse() * C_.inverse().transpose() * (closest_pt - d_)`
computed by `closest_hyperplane` before normalisation. -/
noncomputable def hyperplane_direction (E : Ellipsoid Dim) (closest_pt : Vecf Dim) : Vecf Dim :=
  (E.C_⁻¹ * (E.C_⁻¹)ᵀ) *ᵥ (closest_pt - E.d_)

/-- The method `closest_hyperplane`: the hyperplane through `closest_point(O)`
with normal `n.normalized()`. -/
noncomputable def closest_hyperplane (E : Ellipsoid Dim) (decimal_max : ℝ) (O : vec_Vecf Dim) :
    Hyperplane Dim :=
  let closest_pt := E.closest_point decimal_max O
  let n := E.hyperplane_direction closest_pt
  ⟨closest_pt, normalized n⟩

/-- The increment of `sample`: `decimal_t dyaw = M_PI * 2 / num`, the `int num`
converted to `decimal_t`.  For `num = 0` this is the IEEE 754 division of a
positive number by zero, `+∞`, which is the element `⊤` here. -/
noncomputable def sample_dyaw (num : ℤ) : WithTop ℝ :=
  if num = 0 then ⊤ else ((Real.pi * 2 / (num : ℝ) : ℝ) : WithTop ℝ)

/-- The loop `for (yaw = 0; yaw < M_PI * 2; yaw += dyaw)` of `sample`, on the
state `(yaw, pts)`: while the test holds, the body pushes
`C_ * (cos(yaw), sin(yaw)) + d_` and `yaw` advances by `dyaw`.  The first
argument bounds the number of iterations; `none` means that the bound was
reached with the test still true.  Here `yaw` is accumulated in exact real
arithmetic; `sample_yaw_binary64` below follows the same loop with every sum
rounded to binary64. -/
noncomputable def sample_loop (E : Ellipsoid 2) (dyaw : WithTop ℝ) :
    ℕ → WithTop ℝ → vec_Vecf 2 → Option (vec_Vecf 2)
  | 0, yaw, pts => if yaw < ((Real.pi * 2 : ℝ) : WithTop ℝ) then none else some pts
  | fuel + 1, yaw, pts =>
    if h : yaw < ((Real.pi * 2 : ℝ) : WithTop ℝ) then
      sample_loop E dyaw fuel (yaw + dyaw)
        (pts ++ [E.C_ *ᵥ ![Real.cos (yaw.untop (ne_top_of_lt h)),
          Real.sin (yaw.untop (ne_top_of_lt h))] + E.d_])
    else some pts

/-- The method `sample` (available for `Dim = 2` only): `pts` starts empty and
`yaw` at `0`. -/
noncomputable def sample (E : Ellipsoid 2) (fuel : ℕ) (num : ℤ) : Option (vec_Vecf 2) :=
  E.sample_loop (sample_dyaw num) fuel 0 []

/-- The point at position `k` of `sample(num)` in the words of the spec:
`C * (cos(2 π k / num), sin(2 π k / num)) + d`, the angle being `k` steps of
`2 π / num` from `0`.  The loop above is compared with it. -/
noncomputable def sample_point (E : Ellipsoid 2) (num : ℤ) (k : ℕ) : Vecf 2 :=
  E.C_ *ᵥ ![Real.cos (2 * Real.pi * (k : ℝ) / (num : ℝ)),
    Real.sin (2 * Real.pi * (k : ℝ) / (num : ℝ))] + E.d_

end Ellipsoid

/-- The largest finite IEEE 754 double, `(2 ^ 53 - 1) * 2 ^ 971`: the value of
`std::numeric_limits<double>::max()`, used to instantiate `decimal_max` at
concrete inputs. -/
def double_max : ℝ := (2 ^ 53 - 1) * 2 ^ 971

/-- The linear functional `v ↦ g · v` on `Vecf<Dim>`.  A real function on
vectors has gradient `g` at a point when its derivative there is this
functional. -/
noncomputable def dotCLM {Dim : ℕ} (g : Vecf Dim) : Vecf Dim →L[ℝ] ℝ :=
  ∑ i, g i • (ContinuousLinearMap.proj i : Vecf Dim →L[ℝ] ℝ)

/-- The ellipse of the spec scenario: `C = diag(2, 1)`, `d = (0, 0)`. -/
def diag_ellipsoid : Ellipsoid 2 := ⟨!![2, 0; 0, 1], 0⟩

/-- A concrete ellipsoid whose shape matrix is invertible and not symmetric:
`C = [[1, -1], [0, 1]]`, `d = (0, 0)`. -/
def shear_ellipsoid : Ellipsoid 2 := ⟨!![1, -1; 0, 1], 0⟩

/-- The binary64 value of `M_PI * 2`, as a multiple of `2 ^ -1074`, the spacing
of the smallest binary64 values: `M_PI` is `0x1.921fb54442d18p+1`, that is
`7074237752028440 * 2 ^ -51`, and doubling it is exact. -/
def binary64_two_pi : ℕ := 7074237752028440 <<< 1024

/-- The number of halvings that bring `q` below `2 ^ 53`: the exponent of the
spacing of binary64 values around `q` (in multiples of `2 ^ -1074`).  The first
argument bounds the search and exceeds every binary64 exponent. -/
def binary64_exponent : ℕ → ℕ → ℕ
  | 0, _ => 0
  | fuel + 1, q => if q < 1 <<< 53 then 0 else binary64_exponent fuel (q / 2) + 1

/-- IEEE 754 round-to-nearest, ties-to-even, of the non-negative quotient
`a / b` to a binary64 value with 53 significant bits, all values being counted
in multiples of `2 ^ -1074`.  Overflow is not represented; the values rounded
in this file stay below `2 ^ 4`. -/
def binary64_round (a b : ℕ) : ℕ :=
  let e := binary64_exponent 2100 (a / b)
  let s := b <<< e
  let m := a / s
  let r := a % s
  if 2 * r < s then m <<< e
  else if s < 2 * r then (m + 1) <<< e
  else (m + m % 2) <<< e

/-- The loop `for (yaw = 0; yaw < M_PI * 2; yaw += dyaw)` of `sample` with
`decimal_t = double`, every sum rounded to binary64: the state is `yaw` and the
list of the values of `yaw` at which the body has run, one pushed point for
each.  The first argument bounds the number of iterations; `none` means that
the bound was reached with the test still true. -/
def sample_yaw_binary64 (dyaw : ℕ) : ℕ → ℕ → List ℕ → Option (List ℕ)
  | 0, yaw, yaws => if yaw < binary64_two_pi then none else some yaws
  | fuel + 1, yaw, yaws =>
    if yaw < binary64_two_pi then
      sample_yaw_binary64 dyaw fuel (binary64_round (yaw + dyaw) 1) (yaws ++ [yaw])
    else some yaws

/-- The loop control of `sample(num)` in binary64 arithmetic, for `num ≥ 1`:
`dyaw` is the rounded quotient `M_PI * 2 / num`, `yaw` starts at `0`. -/
def sample_binary64 (fuel : ℕ) (num : ℕ) : Option (List ℕ) :=
  sample_yaw_binary64 (binary64_round binary64_two_pi num) fuel 0 []

/-! ## Elementary facts about the Eigen operations -/

theorem squaredNorm_nonneg {Dim : ℕ} (v : Vecf Dim) : 0 ≤ squaredNorm v := by
  unfold squaredNorm dotProduct
  exact Finset.sum_nonneg (fun i _ => mul_self_nonneg (v i))

theorem squaredNorm_eq_zero {Dim : ℕ} (v : Vecf Dim) : squaredNorm v = 0 ↔ v = 0 := by
  unfold squaredNorm
  exact dotProduct_self_eq_zero

theorem Vecf.norm_nonneg {Dim : ℕ} (v : Vecf Dim) : 0 ≤ norm v :=
  Real.sqrt_nonneg _

theorem Vecf.norm_sq {Dim : ℕ} (v : Vecf Dim) : norm v ^ 2 = squaredNorm v :=
  Real.sq_sqrt (squaredNorm_nonneg v)

theorem Vecf.norm_le_one_iff {Dim : ℕ} (v : Vecf Dim) : norm v ≤ 1 ↔ squaredNorm v ≤ 1 := by
  unfold norm
  rw [Real.sqrt_le_iff]
  norm_num

theorem Vecf.norm_le_norm_iff {Dim : ℕ} (v w : Vecf Dim) :
    norm v ≤ norm w ↔ squaredNorm v ≤ squaredNorm w := by
  unfold norm
  exact Real.sqrt_le_sqrt_iff (squaredNorm_nonneg w)

theorem double_max_gt : (2 : ℝ) < double_max := by
  unfold double_max
  norm_num

theorem normalized_zero {Dim : ℕ} : normalized (0 : Vecf Dim) = 0 := by
  simp [normalized, squaredNorm]

theorem squaredNorm_smul {Dim : ℕ} (c : ℝ) (v : Vecf Dim) :
    squaredNorm (c • v) = c ^ 2 * squaredNorm v := by
  unfold squaredNorm
  rw [smul_dotProduct, dotProduct_smul, smul_eq_mul, smul_eq_mul]
  ring

/-- The vector `normalized v` is `v` scaled by the inverse of its norm (the
zero vector stays the zero vector). -/
theorem normalized_eq_smul {Dim : ℕ} (v : Vecf Dim) : normalized v = (norm v)⁻¹ • v := by
  unfold normalized norm
  by_cases h : 0 < squaredNorm v
  · rw [if_pos h]
  · rw [if_neg h]
    have h0 : squaredNorm v = 0 := le_antisymm (not_lt.1 h) (squaredNorm_nonneg v)
    have hv : v = 0 := (squaredNorm_eq_zero v).1 h0
    rw [hv]
    simp

theorem norm_normalized {Dim : ℕ} (v : Vecf Dim) (hv : v ≠ 0) : norm (normalized v) = 1 := by
  have hpos : 0 < squaredNorm v :=
    lt_of_le_of_ne (squaredNorm_nonneg v) (fun h => hv ((squaredNorm_eq_zero v).1 h.symm))
  have hs : 0 < Real.sqrt (squaredNorm v) := Real.sqrt_pos.2 hpos
  rw [normalized_eq_smul]
  unfold norm
  rw [squaredNorm_smul, inv_pow, Real.sq_sqrt (le_of_lt hpos), inv_mul_cancel₀ (ne_of_gt hpos)]
  exact Real.sqrt_one

/-- Scaling by a positive factor does not change the normalised vector. -/
theorem normalized_smul_pos {Dim : ℕ} (c : ℝ) (hc : 0 < c) (v : Vecf Dim) :
    normalized (c • v) = normalized v := by
  rw [normalized_eq_smul, normalized_eq_smul]
  unfold norm
  rw [squaredNorm_smul, Real.sqrt_mul (sq_nonneg c), Real.sqrt_sq (le_of_lt hc), smul_smul,
    mul_inv, mul_assoc, mul_comm _ c, ← mul_assoc, inv_mul_cancel₀ (ne_of_gt hc), one_mul]

namespace Ellipsoid

variable {Dim : ℕ}

/-! ## The loop of `points_inside` -/

theorem points_inside_fold (E : Ellipsoid Dim) (O acc : vec_Vecf Dim) :
    O.foldl (fun new_O it => if E.inside it then new_O ++ [it] else new_O) acc
      = acc ++ O.filter E.inside := by
  induction O generalizing acc with
  | nil => simp
  | cons it O ih =>
    rw [List.foldl_cons, ih]
    by_cases h : E.inside it = true
    · simp [h, List.filter_cons]
    · simp [h, List.filter_cons]

theorem points_inside_eq_filter (E : Ellipsoid Dim) (O : vec_Vecf Dim) :
    E.points_inside O = O.filter E.inside := by
  unfold points_inside
  rw [points_inside_fold]
  simp

/-! ## The loop of `closest_point` -/

/-- The state after the loop of `closest_point`, started in `st`: either no
point of `O` was below the running minimum and the state is unchanged, or the
state holds the first point of `O` that attains the least `dist`. -/
theorem closest_point_fold (E : Ellipsoid Dim) (O : vec_Vecf Dim) (st : Vecf Dim × ℝ) :
    (O.foldl E.closest_point_step st = st ∧ ∀ q ∈ O, st.2 ≤ E.dist q) ∨
    (∃ l₁ p l₂, O = l₁ ++ p :: l₂ ∧ O.foldl E.closest_point_step st = (p, E.dist p) ∧
      E.dist p < st.2 ∧ (∀ q ∈ l₁, E.dist p < E.dist q) ∧ (∀ q ∈ l₂, E.dist p ≤ E.dist q)) := by
  induction O generalizing st with
  | nil => left; simp
  | cons it O ih =>
    rw [List.foldl_cons]
    by_cases h : E.dist it < st.2
    · have hstep : E.closest_point_step st it = (it, E.dist it) := by
        simp [closest_point_step, h]
      rw [hstep]
      rcases ih (it, E.dist it) with ⟨hr, hall⟩ | ⟨l₁, p, l₂, hO, hr, hlt, h₁, h₂⟩
      · right
        exact ⟨[], it, O, rfl, hr, h, by simp, hall⟩
      · right
        refine ⟨it :: l₁, p, l₂, by simp [hO], hr, lt_trans hlt h, ?_, h₂⟩
        intro q hq
        rcases List.mem_cons.1 hq with rfl | hq
        · exact hlt
        · exact h₁ q hq
    · have hstep : E.closest_point_step st it = st := by
        simp [closest_point_step, h]
      rw [hstep]
      rcases ih st with ⟨hr, hall⟩ | ⟨l₁, p, l₂, hO, hr, hlt, h₁, h₂⟩
      · left
        refine ⟨hr, ?_⟩
        intro q hq
        rcases List.mem_cons.1 hq with rfl | hq
        · exact not_lt.1 h
        · exact hall q hq
      · right
        refine ⟨it :: l₁, p, l₂, by simp [hO], hr, hlt, ?_, h₂⟩
        intro q hq
        rcases List.mem_cons.1 hq with rfl | hq
        · exact lt_of_lt_of_le hlt (not_lt.1 h)
        · exact h₁ q hq

/-- The two outcomes of `closest_point`: the zero vector when no point is below
`decimal_max`, the first minimiser of `dist` otherwise. -/
theorem closest_point_cases (E : Ellipsoid Dim) (decimal_max : ℝ) (O : vec_Vecf Dim) :
    (E.closest_point decimal_max O = 0 ∧ ∀ q ∈ O, decimal_max ≤ E.dist q) ∨
    (∃ l₁ p l₂, O = l₁ ++ p :: l₂ ∧ E.closest_point decimal_max O = p ∧
      E.dist p < decimal_max ∧ (∀ q ∈ l₁, E.dist p < E.dist q) ∧
      (∀ q ∈ l₂, E.dist p ≤ E.dist q)) := by
  unfold closest_point
  rcases E.closest_point_fold O (0, decimal_max) with ⟨hr, hall⟩ | ⟨l₁, p, l₂, hO, hr, hlt, h₁, h₂⟩
  · left
    exact ⟨by rw [hr], hall⟩
  · right
    exact ⟨l₁, p, l₂, hO, by rw [hr], hlt, h₁, h₂⟩

/-- A loop of `closest_point` over points none of which is below the running
minimum leaves the state unchanged. -/
theorem closest_point_fold_unchanged (E : Ellipsoid Dim) (O : vec_Vecf Dim) (st : Vecf Dim × ℝ)
    (h : ∀ q ∈ O, st.2 ≤ E.dist q) : O.foldl E.closest_point_step st = st := by
  induction O with
  | nil => rfl
  | cons it O ih =>
    have hit : ¬ E.dist it < st.2 := not_lt.2 (h it (List.mem_cons_self _ _))
    have hstep : E.closest_point_step st it = st := by simp [closest_point_step, hit]
    rw [List.foldl_cons, hstep]
    exact ih (fun q hq => h q (List.mem_cons_of_mem _ hq))

/-- A loop of `closest_point` over points all strictly above `a`, started with
a running minimum above `a`, ends with a running minimum above `a`. -/
theorem closest_point_fold_gt (E : Ellipsoid Dim) (O : vec_Vecf Dim) (st : Vecf Dim × ℝ) (a : ℝ)
    (hst : a < st.2) (h : ∀ q ∈ O, a < E.dist q) : a < (O.foldl E.closest_point_step st).2 := by
  rcases E.closest_point_fold O st with ⟨hr, _⟩ | ⟨l₁, p, l₂, hO, hr, _, _, _⟩
  · rw [hr]; exact hst
  · rw [hr]
    exact h p (by rw [hO]; simp)

/-- The first point attaining the least `dist`, when that `dist` is below
`decimal_max`, is what `closest_point` returns. -/
theorem closest_point_eq_of_first_min (E : Ellipsoid Dim) (decimal_max : ℝ)
    (l₁ l₂ : vec_Vecf Dim) (p : Vecf Dim) (hlt : E.dist p < decimal_max)
    (h₁ : ∀ q ∈ l₁, E.dist p < E.dist q) (h₂ : ∀ q ∈ l₂, E.dist p ≤ E.dist q) :
    E.closest_point decimal_max (l₁ ++ p :: l₂) = p := by
  unfold closest_point
  rw [List.foldl_append, List.foldl_cons]
  have hgt := E.closest_point_fold_gt l₁ (0, decimal_max) (E.dist p) hlt h₁
  have hstep : E.closest_point_step (l₁.foldl E.closest_point_step (0, decimal_max)) p
      = (p, E.dist p) := by
    simp [closest_point_step, hgt]
  rw [hstep, E.closest_point_fold_unchanged l₂ (p, E.dist p) h₂]

/-- The distance to the center of the unit disc is the Euclidean length. -/
theorem dist_unit (p : Vecf 2) :
    (⟨1, 0⟩ : Ellipsoid 2).dist p = Real.sqrt (p 0 * p 0 + p 1 * p 1) := by
  simp [dist, norm, squaredNorm, dotProduct, Fin.sum_univ_two]

/-- A single point below `decimal_max` is returned by `closest_point`. -/
theorem closest_point_singleton (E : Ellipsoid Dim) (decimal_max : ℝ) (p : Vecf Dim)
    (h : E.dist p < decimal_max) : E.closest_point decimal_max [p] = p := by
  have := E.closest_point_eq_of_first_min decimal_max [] [] p h (by simp) (by simp)
  simpa using this

/-! ## Closest-point search -/

/-- The inverse of the shape matrix of `diag_ellipsoid`. -/
theorem diag_ellipsoid_inv : diag_ellipsoid.C_⁻¹ = !![1 / 2, 0; 0, 1] := by
  apply Matrix.inv_eq_right_inv
  ext i j
  fin_cases i <;> fin_cases j <;> simp [diag_ellipsoid, Matrix.mul_apply, Fin.sum_univ_two]

theorem diag_ellipsoid_isUnit : IsUnit diag_ellipsoid.C_.det := by
  simp [diag_ellipsoid, Matrix.det_fin_two]

theorem diag_ellipsoid_dist (x : Vecf 2) :
    diag_ellipsoid.dist x = Real.sqrt (x 0 / 2 * (x 0 / 2) + x 1 * x 1) := by
  unfold dist
  rw [diag_ellipsoid_inv]
  simp [norm, squaredNorm, diag_ellipsoid, dotProduct, Matrix.mulVec, Fin.sum_univ_two]
  ring_nf

/-- In exact real arithmetic, for an ellipsoid with invertible `C`, `inside(pt)`
is true exactly when `pt` is the image `C * u + d` of a point `u` of the closed
unit ball.  (With the rounded `dist` of the program the two sides can differ
for points next to the boundary.) -/
theorem inside_iff_image_unit_ball (E : Ellipsoid Dim) (pt : Vecf Dim)
    (hC : IsUnit E.C_.det) :
    E.inside pt = true ↔ ∃ u : Vecf Dim, norm u ≤ 1 ∧ pt = E.C_ *ᵥ u + E.d_ := by
  unfold inside dist
  rw [decide_eq_true_iff]
  constructor
  · intro h
    refine ⟨E.C_⁻¹ *ᵥ (pt - E.d_), h, ?_⟩
    rw [Matrix.mulVec_mulVec, Matrix.mul_nonsing_inv _ hC, Matrix.one_mulVec]
    simp
  · rintro ⟨u, hu, rfl⟩
    have : E.C_⁻¹ *ᵥ (E.C_ *ᵥ u + E.d_ - E.d_) = u := by
      rw [add_sub_cancel_right, Matrix.mulVec_mulVec, Matrix.nonsing_inv_mul _ hC,
        Matrix.one_mulVec]
    rw [this]
    exact hu

/-- C9: the containment test is boundary-inclusive: `inside(p)` is true when
`dist(p) ≤ 1`, in particular when `dist(p) = 1`, and false when `dist(p) > 1`. -/
theorem inside_boundary_inclusive (E : Ellipsoid Dim) (p : Vecf Dim) :
    (E.dist p ≤ 1 → E.inside p = true) ∧ (E.dist p = 1 → E.inside p = true) ∧
    (E.dist p > 1 → E.inside p = false) := by
  unfold inside
  refine ⟨fun h => decide_eq_true h, fun h => decide_eq_true (le_of_eq h), fun h => ?_⟩
  exact decide_eq_false (not_le.2 h)

/-- Witness of C9: for `C = diag(2, 1)` and `d = (0, 0)` the point `p = (2, 0)`
has `dist(p) = 1` and `inside(p)` is true. -/
theorem inside_boundary_inclusive_witness :
    diag_ellipsoid.dist ![2, 0] = 1 ∧ diag_ellipsoid.inside ![2, 0] = true :=
  have hd : diag_ellipsoid.dist ![2, 0] = 1 := by
    rw [diag_ellipsoid_dist]; simp
  ⟨hd, (inside_boundary_inclusive diag_ellipsoid ![2, 0]).2.1 hd⟩

/-- C10: `points_inside(O)` is the order-preserving filter of `O` by `inside`:
it is a subsequence of `O`, each of its elements satisfies `inside`, each
element of `O` satisfying `inside` occurs in it with the same multiplicity, and
it is no longer than `O`. -/
theorem points_inside_filter (E : Ellipsoid Dim) (O : vec_Vecf Dim) :
    E.points_inside O = O.filter E.inside ∧
    (E.points_inside O).Sublist O ∧
    (∀ x ∈ E.points_inside O, E.inside x = true) ∧
    (∀ x, E.inside x = true → (E.points_inside O).count x = O.count x) ∧
    (E.points_inside O).length ≤ O.length := by
  rw [points_inside_eq_filter]
  refine ⟨rfl, List.filter_sublist O, ?_, ?_, List.length_filter_le _ O⟩
  · intro x hx
    exact (List.mem_filter.1 hx).2
  · intro x hx
    exact List.count_filter hx

/-! ## Tangent hyperplane -/

/-- For invertible `C` the direction computed by `closest_hyperplane` vanishes
only at the center. -/
theorem hyperplane_direction_ne_zero (E : Ellipsoid Dim) (hC : IsUnit E.C_.det)
    (p : Vecf Dim) (hp : p ≠ E.d_) : E.hyperplane_direction p ≠ 0 := by
  unfold hyperplane_direction
  have hdet : IsUnit (E.C_⁻¹ * (E.C_⁻¹)ᵀ).det := by
    rw [Matrix.det_mul, Matrix.det_transpose]
    have h := Matrix.isUnit_nonsing_inv_det_iff.2 hC
    exact h.mul h
  have hinj := Matrix.mulVec_injective_iff_isUnit.2
    ((Matrix.isUnit_iff_isUnit_det _).2 hdet)
  intro h0
  have h1 : (E.C_⁻¹ * (E.C_⁻¹)ᵀ) *ᵥ (p - E.d_) = (E.C_⁻¹ * (E.C_⁻¹)ᵀ) *ᵥ 0 := by
    rw [h0, Matrix.mulVec_zero]
  exact hp (sub_eq_zero.1 (hinj h1))

/-- In exact real arithmetic, for an ellipsoid with invertible `C` and an `O`
whose closest point differs from the center `d`, the normal returned by
`closest_hyperplane(O)` has Euclidean length 1.  (The program divides with
rounding, so there the length is 1 only up to rounding.) -/
theorem closest_hyperplane_unit_normal (E : Ellipsoid Dim) (decimal_max : ℝ)
    (O : vec_Vecf Dim) (hC : IsUnit E.C_.det) (hp : E.closest_point decimal_max O ≠ E.d_) :
    norm (E.closest_hyperplane decimal_max O).n_ = 1 := by
  unfold closest_hyperplane
  exact norm_normalized _ (E.hyperplane_direction_ne_zero hC _ hp)

/-- At the center no unit normal is returned: for the unit disc and the
non-empty `O = [(0, 0)]` the closest point is the center, the direction is the
zero vector, `normalized()` leaves it unchanged, and the returned normal has
length 0. -/
theorem closest_hyperplane_normal_at_center :
    IsUnit (⟨1, 0⟩ : Ellipsoid 2).C_.det ∧ [(![0, 0] : Vecf 2)] ≠ [] ∧
    norm ((⟨1, 0⟩ : Ellipsoid 2).closest_hyperplane double_max [![0, 0]]).n_ = 0 ∧
    norm ((⟨1, 0⟩ : Ellipsoid 2).closest_hyperplane double_max [![0, 0]]).n_ ≠ 1 := by
  have hp : (⟨1, 0⟩ : Ellipsoid 2).closest_point double_max [![0, 0]] = ![0, 0] :=
    closest_point_singleton _ _ _ (by rw [dist_unit]; simp; linarith [double_max_gt])
  have hz : (![0, 0] : Vecf 2) = 0 := by
    ext i; fin_cases i <;> simp
  have hn : norm ((⟨1, 0⟩ : Ellipsoid 2).closest_hyperplane double_max [![0, 0]]).n_ = 0 := by
    have hdir : (⟨1, 0⟩ : Ellipsoid 2).hyperplane_direction ![0, 0] = 0 := by
      rw [hz]
      simp [hyperplane_direction]
    unfold closest_hyperplane
    simp only
    rw [hp, hdir, normalized_zero]
    simp [norm, squaredNorm]
  refine ⟨by simp, by simp, hn, ?_⟩
  rw [hn]
  norm_num

/-- The inverse of a non-zero multiple of the identity. -/
theorem inv_smul_one (s : ℝ) (hs : s ≠ 0) : ((s • 1 : Matf Dim))⁻¹ = s⁻¹ • 1 := by
  apply Matrix.inv_eq_right_inv
  rw [Matrix.smul_mul, Matrix.mul_smul, Matrix.one_mul, smul_smul, mul_inv_cancel₀ hs, one_smul]

/-- For an isotropic ellipsoid the direction of `closest_hyperplane` is a
positive multiple of `p - d`. -/
theorem hyperplane_direction_isotropic (s : ℝ) (hs : s ≠ 0) (d p : Vecf Dim) :
    (⟨s • 1, d⟩ : Ellipsoid Dim).hyperplane_direction p = (s⁻¹ * s⁻¹) • (p - d) := by
  unfold hyperplane_direction
  simp only [inv_smul_one s hs, Matrix.transpose_smul, Matrix.transpose_one, Matrix.smul_mul,
    Matrix.mul_smul, Matrix.one_mul, smul_smul, Matrix.smul_mulVec_assoc, Matrix.one_mulVec]

/-- In exact real arithmetic, for an isotropic ellipsoid (`C = s * identity`,
`s ≠ 0`), every center `d` and every `O`, the normal returned by
`closest_hyperplane(O)` is the normalised Euclidean direction
`(p - d) / ‖p - d‖` with `p = closest_point(O)`.  (In the program the two
sides are rounded differently.) -/
theorem closest_hyperplane_isotropic (s : ℝ) (d : Vecf Dim) (decimal_max : ℝ)
    (O : vec_Vecf Dim) (hs : s ≠ 0) :
    ((⟨s • 1, d⟩ : Ellipsoid Dim).closest_hyperplane decimal_max O).n_
      = (norm ((⟨s • 1, d⟩ : Ellipsoid Dim).closest_point decimal_max O - d))⁻¹
          • ((⟨s • 1, d⟩ : Ellipsoid Dim).closest_point decimal_max O - d) := by
  unfold closest_hyperplane
  simp only
  rw [hyperplane_direction_isotropic s hs,
    normalized_smul_pos _ (mul_self_pos.2 (inv_ne_zero hs)), normalized_eq_smul]

/-! ## The direction of `closest_hyperplane` and the quadratic form of `dist` -/

theorem dotCLM_apply (g v : Vecf Dim) : dotCLM g v = g ⬝ᵥ v := by
  simp [dotCLM, dotProduct]

/-- The square of `dist` is the squared norm of `C⁻¹ (x - d)`. -/
theorem dist_sq (E : Ellipsoid Dim) (x : Vecf Dim) :
    E.dist x ^ 2 = squaredNorm (E.C_⁻¹ *ᵥ (x - E.d_)) :=
  Vecf.norm_sq _

/-- Each coordinate of `A (x - d)` is differentiable in `x`, with the matching
row of `A` as gradient. -/
theorem hasFDerivAt_mulVec_sub (A : Matf Dim) (d p : Vecf Dim) (i : Fin Dim) :
    HasFDerivAt (fun x : Vecf Dim => (A *ᵥ (x - d)) i) (dotCLM (fun j => A i j)) p := by
  unfold dotCLM
  have h : ∀ j ∈ (Finset.univ : Finset (Fin Dim)),
      HasFDerivAt (fun x : Vecf Dim => A i j * (x j - d j))
        (A i j • (ContinuousLinearMap.proj j : Vecf Dim →L[ℝ] ℝ)) p := by
    intro j _
    exact ((hasFDerivAt_apply j p).sub_const (d j)).const_mul (A i j)
  have hs := HasFDerivAt.sum h
  convert hs using 1

/-- The gradient of `x ↦ ‖A (x - d)‖²` at `p` is `2 Aᵀ A (p - d)`. -/
theorem hasFDerivAt_squaredNorm_mulVec (A : Matf Dim) (d p : Vecf Dim) :
    HasFDerivAt (fun x : Vecf Dim => squaredNorm (A *ᵥ (x - d)))
      ((2 : ℝ) • dotCLM ((Aᵀ * A) *ᵥ (p - d))) p := by
  have h : ∀ i ∈ (Finset.univ : Finset (Fin Dim)),
      HasFDerivAt (fun x : Vecf Dim => (A *ᵥ (x - d)) i * (A *ᵥ (x - d)) i)
        ((A *ᵥ (p - d)) i • dotCLM (fun j => A i j)
          + (A *ᵥ (p - d)) i • dotCLM (fun j => A i j)) p := by
    intro i _
    exact (hasFDerivAt_mulVec_sub A d p i).mul (hasFDerivAt_mulVec_sub A d p i)
  have hs := HasFDerivAt.sum h
  have hfun : (fun x : Vecf Dim => squaredNorm (A *ᵥ (x - d)))
      = fun x : Vecf Dim => ∑ i, (A *ᵥ (x - d)) i * (A *ᵥ (x - d)) i := by
    funext x
    rfl
  rw [hfun]
  convert hs using 1
  ext v
  simp only [ContinuousLinearMap.smul_apply, ContinuousLinearMap.sum_apply,
    ContinuousLinearMap.add_apply, dotCLM_apply, smul_eq_mul]
  rw [← Matrix.mulVec_mulVec, Matrix.mulVec_transpose, ← Matrix.dotProduct_mulVec]
  unfold dotProduct
  rw [Finset.mul_sum]
  apply Finset.sum_congr rfl
  intro i _
  have : (A *ᵥ v) i = ∑ j, A i j * v j := rfl
  rw [this]
  ring

/-- The gradient at `p` of the quadratic form `dist²` of an ellipsoid is
`2 C⁻ᵀ C⁻¹ (p - d)`. -/
theorem hasFDerivAt_dist_sq (E : Ellipsoid Dim) (p : Vecf Dim) :
    HasFDerivAt (fun x : Vecf Dim => E.dist x ^ 2)
      ((2 : ℝ) • dotCLM ((((E.C_⁻¹)ᵀ * E.C_⁻¹)) *ᵥ (p - E.d_))) p := by
  have hfun : (fun x : Vecf Dim => E.dist x ^ 2)
      = fun x : Vecf Dim => squaredNorm (E.C_⁻¹ *ᵥ (x - E.d_)) := by
    funext x
    exact E.dist_sq x
  rw [hfun]
  exact hasFDerivAt_squaredNorm_mulVec E.C_⁻¹ E.d_ p

/-- For a symmetric shape matrix the inverse commutes with its transpose. -/
theorem inv_comm_transpose_of_isSymm (E : Ellipsoid Dim) (hsymm : E.C_.IsSymm) :
    E.C_⁻¹ * (E.C_⁻¹)ᵀ = (E.C_⁻¹)ᵀ * E.C_⁻¹ := by
  have h : (E.C_⁻¹)ᵀ = E.C_⁻¹ := by
    rw [Matrix.transpose_nonsing_inv, hsymm.eq]
  rw [h]

/-- The inverse of the shape matrix of `diag_ellipsoid` is symmetric, so it
commutes with its transpose. -/
theorem diag_ellipsoid_comm :
    diag_ellipsoid.C_⁻¹ * (diag_ellipsoid.C_⁻¹)ᵀ
      = (diag_ellipsoid.C_⁻¹)ᵀ * diag_ellipsoid.C_⁻¹ := by
  have hT : (!![1 / 2, 0; 0, 1] : Matf 2)ᵀ = !![1 / 2, 0; 0, 1] := by
    ext i j
    fin_cases i <;> fin_cases j <;> rfl
  rw [diag_ellipsoid_inv, hT]

/-- The inverse of the shape matrix of `shear_ellipsoid`. -/
theorem shear_ellipsoid_inv : shear_ellipsoid.C_⁻¹ = !![1, 1; 0, 1] := by
  apply Matrix.inv_eq_right_inv
  ext i j
  fin_cases i <;> fin_cases j <;> simp [shear_ellipsoid, Matrix.mul_apply, Fin.sum_univ_two]

theorem shear_ellipsoid_transpose : (!![1, 1; 0, 1] : Matf 2)ᵀ = !![1, 0; 1, 1] := by
  ext i j
  fin_cases i <;> fin_cases j <;> rfl

theorem shear_ellipsoid_isUnit : IsUnit shear_ellipsoid.C_.det := by
  simp [shear_ellipsoid, Matrix.det_fin_two]

theorem shear_ellipsoid_direction (x : Vecf 2) :
    shear_ellipsoid.hyperplane_direction x = ![2 * x 0 + x 1, x 0 + x 1] := by
  have hM : ((!![1, 1; 0, 1] : Matf 2) * (!![1, 1; 0, 1] : Matf 2)ᵀ) = !![2, 1; 1, 1] := by
    rw [shear_ellipsoid_transpose]
    ext i j
    fin_cases i <;> fin_cases j <;> norm_num [Matrix.mul_apply, Fin.sum_univ_two]
  unfold hyperplane_direction
  rw [shear_ellipsoid_inv, hM]
  ext i
  fin_cases i <;> simp [shear_ellipsoid, Matrix.mulVec, dotProduct, Fin.sum_univ_two]

/-- The gradient of `dist²` of `shear_ellipsoid` at `x` is
`2 C⁻ᵀ C⁻¹ x = (2 (x₀ + x₁), 2 (x₀ + 2 x₁))`. -/
theorem shear_ellipsoid_gradient (x : Vecf 2) :
    HasFDerivAt (fun y : Vecf 2 => shear_ellipsoid.dist y ^ 2)
      (dotCLM ![2 * (x 0 + x 1), 2 * (x 0 + 2 * x 1)]) x := by
  have h := shear_ellipsoid.hasFDerivAt_dist_sq x
  have hM : ((!![1, 1; 0, 1] : Matf 2)ᵀ * (!![1, 1; 0, 1] : Matf 2)) = !![1, 1; 1, 2] := by
    rw [shear_ellipsoid_transpose]
    ext i j
    fin_cases i <;> fin_cases j <;> norm_num [Matrix.mul_apply, Fin.sum_univ_two]
  rw [shear_ellipsoid_inv, hM] at h
  convert h using 1
  ext v
  simp [dotCLM_apply, shear_ellipsoid, Matrix.mulVec, dotProduct, Fin.sum_univ_two]
  ring

/-- C5 (amended): for every ellipsoid whose `C⁻¹` commutes with its transpose
(`C⁻¹ C⁻ᵀ = C⁻ᵀ C⁻¹`, as for every symmetric `C`), every center `d` and every
point `p`, the gradient at `p` of the quadratic form `f(x) = ‖C⁻¹ (x - d)‖²`,
the square of `dist`, is `2 n` for the direction `n = C⁻¹ C⁻ᵀ (p - d)` used by
`closest_hyperplane`. -/
theorem hyperplane_direction_gradient (E : Ellipsoid Dim) (p : Vecf Dim)
    (hcomm : E.C_⁻¹ * (E.C_⁻¹)ᵀ = (E.C_⁻¹)ᵀ * E.C_⁻¹) :
    HasFDerivAt (fun x : Vecf Dim => E.dist x ^ 2)
      ((2 : ℝ) • dotCLM (E.hyperplane_direction p)) p := by
  unfold hyperplane_direction
  rw [hcomm]
  exact E.hasFDerivAt_dist_sq p

/-- Witness of C5 (amended): the ellipse `C = diag(2, 1)`, `d = (0, 0)` at the
point `p = (2, 0)`. -/
theorem hyperplane_direction_gradient_witness :
    (diag_ellipsoid.C_⁻¹ * (diag_ellipsoid.C_⁻¹)ᵀ
      = (diag_ellipsoid.C_⁻¹)ᵀ * diag_ellipsoid.C_⁻¹) ∧
    HasFDerivAt (fun x : Vecf 2 => diag_ellipsoid.dist x ^ 2)
      ((2 : ℝ) • dotCLM (diag_ellipsoid.hyperplane_direction ![2, 0])) ![2, 0] :=
  ⟨diag_ellipsoid_comm, hyperplane_direction_gradient diag_ellipsoid ![2, 0] diag_ellipsoid_comm⟩

/-- C5 as stated fails at `shear_ellipsoid` (`C = [[1, -1], [0, 1]]`, invertible,
`d = 0`) and `p = (1, 0)`: the direction used by `closest_hyperplane` is
`n = (2, 1)`, the gradient of `dist²` at `p` is `(2, 2)`, and no positive factor
`c` makes `c n` the gradient. -/
theorem hyperplane_direction_gradient_counterexample :
    IsUnit shear_ellipsoid.C_.det ∧
    shear_ellipsoid.hyperplane_direction ![1, 0] = ![2, 1] ∧
    HasFDerivAt (fun x : Vecf 2 => shear_ellipsoid.dist x ^ 2) (dotCLM ![2, 2]) ![1, 0] ∧
    ¬ ∃ c : ℝ, 0 < c ∧
      HasFDerivAt (fun x : Vecf 2 => shear_ellipsoid.dist x ^ 2)
        (c • dotCLM (shear_ellipsoid.hyperplane_direction ![1, 0])) ![1, 0] := by
  have hdir : shear_ellipsoid.hyperplane_direction ![1, 0] = ![2, 1] := by
    rw [shear_ellipsoid_direction]
    ext i
    fin_cases i <;> simp
  have hgrad : HasFDerivAt (fun x : Vecf 2 => shear_ellipsoid.dist x ^ 2)
      (dotCLM ![2, 2]) ![1, 0] := by
    have h := shear_ellipsoid_gradient ![1, 0]
    have hv : (![2 * ((![1, 0] : Vecf 2) 0 + (![1, 0] : Vecf 2) 1),
        2 * ((![1, 0] : Vecf 2) 0 + 2 * (![1, 0] : Vecf 2) 1)] : Vecf 2) = ![2, 2] := by
      ext i
      fin_cases i <;> simp
    rw [hv] at h
    exact h
  refine ⟨shear_ellipsoid_isUnit, hdir, hgrad, ?_⟩
  rintro ⟨c, _, hc⟩
  rw [hdir] at hc
  have e := hgrad.unique hc
  have e0 := congrArg (fun L : Vecf 2 →L[ℝ] ℝ => L ![1, 0]) e
  have e1 := congrArg (fun L : Vecf 2 →L[ℝ] ℝ => L ![0, 1]) e
  simp [dotCLM_apply, dotProduct, Fin.sum_univ_two] at e0 e1
  linarith

/-- The Cauchy-Schwarz inequality for the Eigen dot product and norm. -/
theorem dotProduct_le_norm_mul_norm (a b : Vecf Dim) : a ⬝ᵥ b ≤ norm a * norm b := by
  have h : (a ⬝ᵥ b) ^ 2 ≤ squaredNorm a * squaredNorm b := by
    have := Finset.sum_mul_sq_le_sq_mul_sq (Finset.univ : Finset (Fin Dim)) a b
    simpa [squaredNorm, dotProduct, sq] using this
  have h2 := Real.abs_le_sqrt h
  rw [Real.sqrt_mul (squaredNorm_nonneg a)] at h2
  exact le_trans (le_abs_self _) h2

/-- When `C⁻¹` commutes with its transpose, the direction computed for `p` has a
non-positive dot product with `x - p` for every `x` that is not farther from the
center than `p` in the metric `dist`. -/
theorem hyperplane_direction_dot_le (E : Ellipsoid Dim) (p x : Vecf Dim)
    (hcomm : E.C_⁻¹ * (E.C_⁻¹)ᵀ = (E.C_⁻¹)ᵀ * E.C_⁻¹) (hx : E.dist x ≤ E.dist p) :
    E.hyperplane_direction p ⬝ᵥ (x - p) ≤ 0 := by
  unfold hyperplane_direction
  rw [hcomm, ← Matrix.mulVec_mulVec, Matrix.mulVec_transpose, ← Matrix.dotProduct_mulVec]
  have hsub : E.C_⁻¹ *ᵥ (x - p) = E.C_⁻¹ *ᵥ (x - E.d_) - E.C_⁻¹ *ᵥ (p - E.d_) := by
    rw [← Matrix.mulVec_sub, sub_sub_sub_cancel_right]
  rw [hsub, dotProduct_sub]
  have hcs := dotProduct_le_norm_mul_norm (E.C_⁻¹ *ᵥ (p - E.d_)) (E.C_⁻¹ *ᵥ (x - E.d_))
  have hpp : (E.C_⁻¹ *ᵥ (p - E.d_)) ⬝ᵥ (E.C_⁻¹ *ᵥ (p - E.d_)) = E.dist p * E.dist p := by
    have := E.dist_sq p
    unfold squaredNorm at this
    rw [← this]
    ring
  rw [hpp]
  have hmul : E.dist p * E.dist x ≤ E.dist p * E.dist p :=
    mul_le_mul_of_nonneg_left hx (Vecf.norm_nonneg _)
  have hcs2 : (E.C_⁻¹ *ᵥ (p - E.d_)) ⬝ᵥ (E.C_⁻¹ *ᵥ (x - E.d_)) ≤ E.dist p * E.dist x := hcs
  linarith

/-- In exact real arithmetic, for every ellipsoid whose `C⁻¹` commutes with its
transpose (as for every symmetric `C`) and every `O`, the hyperplane `(p, n)`
returned by `closest_hyperplane(O)` supports the level set of `dist` through
`p = closest_point(O)`: every `x` with `dist(x) ≤ dist(p)` satisfies
`n · (x - p) ≤ 0`.  (With the rounded `dist` and normal of the program the
inequality can fail by a rounding error.) -/
theorem closest_hyperplane_supporting (E : Ellipsoid Dim) (decimal_max : ℝ)
    (O : vec_Vecf Dim) (x : Vecf Dim)
    (hcomm : E.C_⁻¹ * (E.C_⁻¹)ᵀ = (E.C_⁻¹)ᵀ * E.C_⁻¹)
    (hx : E.dist x ≤ E.dist (E.closest_point decimal_max O)) :
    (E.closest_hyperplane decimal_max O).p_ = E.closest_point decimal_max O ∧
    (E.closest_hyperplane decimal_max O).n_ ⬝ᵥ (x - E.closest_point decimal_max O) ≤ 0 ∧
    (E.closest_hyperplane decimal_max O).n_
      ⬝ᵥ (E.closest_point decimal_max O - E.closest_point decimal_max O) = 0 := by
  refine ⟨rfl, ?_, by rw [sub_self, dotProduct_zero]⟩
  unfold closest_hyperplane
  simp only
  rw [normalized_eq_smul, smul_dotProduct, smul_eq_mul]
  exact mul_nonpos_of_nonneg_of_nonpos (inv_nonneg.2 (Vecf.norm_nonneg _))
    (E.hyperplane_direction_dot_le _ x hcomm hx)

/-- One iteration of the loop of `sample` at a finite `yaw` below `2 π`. -/
theorem sample_loop_succ (E : Ellipsoid 2) (dyaw : WithTop ℝ) (fuel : ℕ) (y : ℝ)
    (pts : vec_Vecf 2) (h : y < Real.pi * 2) :
    E.sample_loop dyaw (fuel + 1) (y : WithTop ℝ) pts
      = E.sample_loop dyaw fuel ((y : WithTop ℝ) + dyaw)
          (pts ++ [E.C_ *ᵥ ![Real.cos y, Real.sin y] + E.d_]) := by
  have h2 : (y : WithTop ℝ) < ((Real.pi * 2 : ℝ) : WithTop ℝ) := WithTop.coe_lt_coe.2 h
  rw [sample_loop, dif_pos h2]
  simp

/-- The loop of `sample` stops as soon as the test `yaw < 2 π` fails. -/
theorem sample_loop_done (E : Ellipsoid 2) (dyaw yaw : WithTop ℝ) (fuel : ℕ)
    (pts : vec_Vecf 2) (h : ¬ yaw < ((Real.pi * 2 : ℝ) : WithTop ℝ)) :
    E.sample_loop dyaw fuel yaw pts = some pts := by
  cases fuel with
  | zero => rw [sample_loop, if_neg h]
  | succ fuel => rw [sample_loop, dif_neg h]

/-- The loop of `sample` with a finite positive increment `r = 2 π / n`: started
at `yaw = k r` with `m = n - k` steps to go and at least `m` iterations allowed,
it ends after pushing the points for the angles `k r, ..., (n - 1) r`. -/
theorem sample_loop_pos (E : Ellipsoid 2) (n : ℕ) (r : ℝ) (hr : 0 < r)
    (hn : (n : ℝ) * r = Real.pi * 2) :
    ∀ (m k fuel : ℕ) (pts : vec_Vecf 2), k + m = n → m ≤ fuel →
      E.sample_loop (r : WithTop ℝ) fuel (((k : ℝ) * r : ℝ) : WithTop ℝ) pts
        = some (pts ++ (List.range' k m).map
            (fun j : ℕ =>
              E.C_ *ᵥ ![Real.cos ((j : ℝ) * r), Real.sin ((j : ℝ) * r)] + E.d_)) := by
  intro m
  induction m with
  | zero =>
    intro k fuel pts hk _
    have hkn : k = n := by omega
    have hcond : ¬ ((((k : ℝ) * r : ℝ) : WithTop ℝ) < ((Real.pi * 2 : ℝ) : WithTop ℝ)) := by
      rw [WithTop.coe_lt_coe, hkn, hn]
      exact lt_irrefl _
    rw [E.sample_loop_done _ _ _ _ hcond]
    simp
  | succ m ih =>
    intro k fuel pts hk hfuel
    obtain ⟨fuel, rfl⟩ : ∃ f, fuel = f + 1 := ⟨fuel - 1, by omega⟩
    have hlt : (k : ℝ) * r < Real.pi * 2 := by
      rw [← hn]
      have hkn : (k : ℝ) < (n : ℝ) := by
        exact_mod_cast (show k < n by omega)
      exact mul_lt_mul_of_pos_right hkn hr
    rw [E.sample_loop_succ _ _ _ _ hlt, ← WithTop.coe_add]
    have hstep : (k : ℝ) * r + r = ((k + 1 : ℕ) : ℝ) * r := by
      push_cast
      ring
    rw [hstep, ih (k + 1) fuel _ (by omega) (by omega)]
    simp [List.range'_succ]

/-- The loop of `sample` with a finite negative increment never ends: started at
a `yaw` below `2 π` it reaches every bound on the number of iterations. -/
theorem sample_loop_neg (E : Ellipsoid 2) (r : ℝ) (hr : r < 0) :
    ∀ (fuel : ℕ) (y : ℝ) (pts : vec_Vecf 2), y < Real.pi * 2 →
      E.sample_loop (r : WithTop ℝ) fuel (y : WithTop ℝ) pts = none := by
  intro fuel
  induction fuel with
  | zero =>
    intro y pts hy
    rw [sample_loop, if_pos (WithTop.coe_lt_coe.2 hy)]
  | succ fuel ih =>
    intro y pts hy
    rw [E.sample_loop_succ _ _ _ _ hy, ← WithTop.coe_add]
    exact ih (y + r) _ (by linarith)

theorem two_pi_pos : 0 < Real.pi * 2 := by
  have := Real.pi_pos
  linarith

/-- For `num ≥ 1` the increment of `sample` is the positive real `2 π / num`. -/
theorem sample_dyaw_pos (num : ℤ) (hnum : 1 ≤ num) :
    sample_dyaw num = ((Real.pi * 2 / (num : ℝ) : ℝ) : WithTop ℝ) ∧
      0 < Real.pi * 2 / (num : ℝ) ∧
      ((num.toNat : ℕ) : ℝ) * (Real.pi * 2 / (num : ℝ)) = Real.pi * 2 := by
  have hne : num ≠ 0 := by omega
  have hpos : (0 : ℝ) < (num : ℝ) := by exact_mod_cast (show (0 : ℤ) < num by omega)
  have hcast : ((num.toNat : ℕ) : ℝ) = (num : ℝ) := by
    have h : ((num.toNat : ℕ) : ℤ) = num := Int.toNat_of_nonneg (by omega)
    exact_mod_cast h
  refine ⟨by simp [sample_dyaw, hne], div_pos two_pi_pos hpos, ?_⟩
  rw [hcast]
  field_simp

/-- For `num ≥ 1`, given at least `num` iterations, `sample(num)` returns the
points for the angles `k * (2 π / num)`, `k = 0, ..., num - 1`, in this order. -/
theorem sample_eq_map (E : Ellipsoid 2) (num : ℤ) (hnum : 1 ≤ num) (fuel : ℕ)
    (hfuel : num.toNat ≤ fuel) :
    E.sample fuel num = some ((List.range num.toNat).map (E.sample_point num)) := by
  obtain ⟨hd, hr, hn⟩ := sample_dyaw_pos num hnum
  unfold sample
  rw [hd]
  have h := E.sample_loop_pos num.toNat _ hr hn num.toNat 0 fuel [] (by omega) hfuel
  simp only [Nat.cast_zero, zero_mul, List.nil_append, WithTop.coe_zero] at h
  rw [h, List.range_eq_range']
  congr 1
  apply List.map_congr_left
  intro j _
  unfold sample_point
  have hang : (j : ℝ) * (Real.pi * 2 / (num : ℝ)) = 2 * Real.pi * (j : ℝ) / (num : ℝ) := by
    ring
  rw [hang]

/-- With fewer iterations allowed than steps to go, the loop of `sample` with a
finite positive increment reaches the bound. -/
theorem sample_loop_short (E : Ellipsoid 2) (n : ℕ) (r : ℝ) (hr : 0 < r)
    (hn : (n : ℝ) * r = Real.pi * 2) :
    ∀ (fuel m k : ℕ) (pts : vec_Vecf 2), k + m = n → fuel < m →
      E.sample_loop (r : WithTop ℝ) fuel (((k : ℝ) * r : ℝ) : WithTop ℝ) pts = none := by
  intro fuel
  induction fuel with
  | zero =>
    intro m k pts hk hm
    have hlt : (k : ℝ) * r < Real.pi * 2 := by
      rw [← hn]
      have hkn : (k : ℝ) < (n : ℝ) := by
        exact_mod_cast (show k < n by omega)
      exact mul_lt_mul_of_pos_right hkn hr
    rw [sample_loop, if_pos (WithTop.coe_lt_coe.2 hlt)]
  | succ fuel ih =>
    intro m k pts hk hm
    have hlt : (k : ℝ) * r < Real.pi * 2 := by
      rw [← hn]
      have hkn : (k : ℝ) < (n : ℝ) := by
        exact_mod_cast (show k < n by omega)
      exact mul_lt_mul_of_pos_right hkn hr
    rw [E.sample_loop_succ _ _ _ _ hlt, ← WithTop.coe_add]
    have hstep : (k : ℝ) * r + r = ((k + 1 : ℕ) : ℝ) * r := by
      push_cast
      ring
    rw [hstep]
    exact ih (m - 1) (k + 1) _ (by omega) (by omega)

/-- For `num ≥ 1`, with fewer than `num` iterations allowed `sample(num)` has not
finished. -/
theorem sample_eq_none (E : Ellipsoid 2) (num : ℤ) (hnum : 1 ≤ num) (fuel : ℕ)
    (hfuel : fuel < num.toNat) : E.sample fuel num = none := by
  obtain ⟨hd, hr, hn⟩ := sample_dyaw_pos num hnum
  unfold sample
  rw [hd]
  have h := E.sample_loop_short num.toNat _ hr hn fuel num.toNat 0 [] (by omega) hfuel
  simpa only [Nat.cast_zero, zero_mul, WithTop.coe_zero] using h

/-- For `num = 0` the increment is `+∞`: the loop runs its body once, at
`yaw = 0`, and stops. -/
theorem sample_zero (E : Ellipsoid 2) (fuel : ℕ) :
    E.sample (fuel + 1) 0 = some [E.C_ *ᵥ ![Real.cos 0, Real.sin 0] + E.d_] := by
  unfold sample
  have hd : sample_dyaw 0 = ⊤ := by simp [sample_dyaw]
  have h0 : (0 : WithTop ℝ) = ((0 : ℝ) : WithTop ℝ) := rfl
  rw [hd, h0, E.sample_loop_succ _ _ _ _ two_pi_pos, WithTop.add_top,
    E.sample_loop_done _ _ _ _ not_top_lt]
  simp

/-- For negative `num` the loop of `sample` reaches every bound on the number of
iterations. -/
theorem sample_neg (E : Ellipsoid 2) (num : ℤ) (hnum : num < 0) (fuel : ℕ) :
    E.sample fuel num = none := by
  have hne : num ≠ 0 := by omega
  have hneg : (num : ℝ) < 0 := by exact_mod_cast hnum
  have hd : sample_dyaw num = ((Real.pi * 2 / (num : ℝ) : ℝ) : WithTop ℝ) := by
    simp [sample_dyaw, hne]
  unfold sample
  have h0 : (0 : WithTop ℝ) = ((0 : ℝ) : WithTop ℝ) := rfl
  rw [hd, h0]
  exact E.sample_loop_neg _ (div_neg_of_pos_of_neg two_pi_pos hneg) fuel 0 [] two_pi_pos

/-- With `yaw` accumulated in exact real arithmetic, for every 2D ellipsoid and
every `num ≥ 1`, `sample(num)` returns (as soon as `num` iterations are
allowed, and not before) a sequence of exactly `num` points whose `k`-th
element is `C * (cos(2 π k / num), sin(2 π k / num)) + d`.  The program
accumulates `yaw` in binary64, where the number of iterations can be `num + 1`,
as `sample_binary64` shows for `num = 6`. -/
theorem sample_points (E : Ellipsoid 2) (num : ℤ) (hnum : 1 ≤ num) :
    ∃ pts : vec_Vecf 2,
      (∀ fuel : ℕ, E.sample fuel num = if num.toNat ≤ fuel then some pts else none) ∧
      (pts.length : ℤ) = num ∧
      ∀ (k : ℕ) (hk : k < pts.length),
        pts.get ⟨k, hk⟩
          = E.C_ *ᵥ ![Real.cos (2 * Real.pi * (k : ℝ) / (num : ℝ)),
              Real.sin (2 * Real.pi * (k : ℝ) / (num : ℝ))] + E.d_ := by
  refine ⟨(List.range num.toNat).map (E.sample_point num), ?_, ?_, ?_⟩
  · intro fuel
    by_cases h : num.toNat ≤ fuel
    · rw [if_pos h]
      exact E.sample_eq_map num hnum fuel h
    · rw [if_neg h]
      exact E.sample_eq_none num hnum fuel (not_le.1 h)
  · rw [List.length_map, List.length_range]
    exact Int.toNat_of_nonneg (by omega)
  · intro k hk
    rw [List.get_eq_getElem, List.getElem_map, List.getElem_range]
    rfl

set_option maxRecDepth 100000 in
/-- C11 fails on the code at `num = 6`: in binary64 arithmetic
`dyaw = M_PI * 2 / 6` is rounded to `4716158501352293 * 2 ^ -52`, and after six
additions `yaw` is `7074237752028439 * 2 ^ -50`, one unit in the last place
below `M_PI * 2 = 7074237752028440 * 2 ^ -50`.  The test `yaw < M_PI * 2`
therefore holds a seventh time: six iterations do not finish the loop, and the
loop ends after seven, so `sample(6)` returns 7 points, not 6 (values below are
multiples of `2 ^ -1074`). -/
theorem sample_binary64_six :
    binary64_round binary64_two_pi 6 = 4716158501352293 <<< 1022 ∧
    sample_binary64 6 6 = none ∧
    sample_binary64 7 6 = some [0, 4716158501352293 <<< 1022, 4716158501352293 <<< 1023,
      884279719003555 <<< 1026, 4716158501352293 <<< 1024, 2947599063345183 <<< 1025,
      7074237752028439 <<< 1024] ∧
    (sample_binary64 7 6).map List.length = some 7 := by
  decide

/-- A point of the unit circle has Euclidean norm 1. -/
theorem norm_cos_sin (θ : ℝ) : norm (![Real.cos θ, Real.sin θ] : Vecf 2) = 1 := by
  unfold norm squaredNorm
  have h : (![Real.cos θ, Real.sin θ] : Vecf 2) ⬝ᵥ ![Real.cos θ, Real.sin θ] = 1 := by
    simp only [dotProduct, Fin.sum_univ_two, Matrix.cons_val_zero, Matrix.cons_val_one,
      Matrix.head_cons]
    have := Real.cos_sq_add_sin_sq θ
    nlinarith
  rw [h, Real.sqrt_one]

/-- For invertible `C` the image `C u + d` has `dist` equal to the norm of `u`. -/
theorem dist_image (E : Ellipsoid Dim) (hC : IsUnit E.C_.det) (u : Vecf Dim) :
    E.dist (E.C_ *ᵥ u + E.d_) = norm u := by
  unfold dist
  rw [add_sub_cancel_right, Matrix.mulVec_mulVec, Matrix.nonsing_inv_mul _ hC,
    Matrix.one_mulVec]

/-- For invertible `C` every point that `sample` is to produce lies on the
boundary of the ellipsoid. -/
theorem dist_sample_point (E : Ellipsoid 2) (hC : IsUnit E.C_.det) (num : ℤ) (k : ℕ) :
    E.dist (E.sample_point num k) = 1 := by
  unfold sample_point
  rw [E.dist_image hC, norm_cos_sin]

/-- For the unit circle `dist` is the Euclidean distance from the origin. -/
theorem dist_eq_norm_of_unit (E : Ellipsoid Dim) (hC : E.C_ = 1) (hd : E.d_ = 0)
    (pt : Vecf Dim) : E.dist pt = norm pt := by
  unfold dist
  rw [hC, hd, inv_one, Matrix.one_mulVec, sub_zero]

/-- In exact real arithmetic, for every 2D ellipsoid with invertible `C` and
every `num ≥ 1`, `sample(num)` returns `num` points each of which lies on the
boundary, `dist(pt) = 1`, hence `inside(pt)` is true; for `C` the identity and
`d` the origin each sampled point is at Euclidean distance 1 from the origin.
(In the program `cos`, `sin`, the products and `dist` are rounded, so `dist`
of a sampled point is 1 only up to rounding.) -/
theorem sample_on_boundary (E : Ellipsoid 2) (num : ℤ) (hC : IsUnit E.C_.det)
    (hnum : 1 ≤ num) :
    ∃ pts : vec_Vecf 2,
      (∀ fuel : ℕ, num.toNat ≤ fuel → E.sample fuel num = some pts) ∧
      (pts.length : ℤ) = num ∧
      (∀ pt ∈ pts, E.dist pt = 1 ∧ E.inside pt = true) ∧
      (E.C_ = 1 → E.d_ = 0 → ∀ pt ∈ pts, norm pt = 1) := by
  have hall : ∀ pt ∈ (List.range num.toNat).map (E.sample_point num), E.dist pt = 1 := by
    intro pt hpt
    obtain ⟨k, _, rfl⟩ := List.mem_map.1 hpt
    exact E.dist_sample_point hC num k
  refine ⟨(List.range num.toNat).map (E.sample_point num),
    fun fuel h => E.sample_eq_map num hnum fuel h, ?_, ?_, ?_⟩
  · rw [List.length_map, List.length_range]
    exact Int.toNat_of_nonneg (by omega)
  · intro pt hpt
    have h := hall pt hpt
    refine ⟨h, ?_⟩
    unfold inside
    exact decide_eq_true (le_of_eq h)
  · intro h1 h0 pt hpt
    rw [← E.dist_eq_norm_of_unit h1 h0 pt]
    exact hall pt hpt

/-- C15 (amended): `sample(num)` terminates and returns a finite sequence exactly
for the arguments `num ≥ 0`: some bound on the number of iterations lets the
loop finish if and only if `num` is not negative; for negative `num` it never
finishes. -/
theorem sample_terminates_iff (E : Ellipsoid 2) (num : ℤ) :
    (∃ (fuel : ℕ) (pts : vec_Vecf 2), E.sample fuel num = some pts) ↔ 0 ≤ num := by
  constructor
  · rintro ⟨fuel, pts, h⟩
    by_contra hneg
    rw [E.sample_neg num (not_le.1 hneg) fuel] at h
    exact Option.noConfusion h
  · intro h0
    rcases eq_or_lt_of_le h0 with h | h
    · subst h
      exact ⟨1, _, E.sample_zero 0⟩
    · exact ⟨num.toNat, _, E.sample_eq_map num (by omega) num.toNat (le_refl _)⟩

/-- C15 as stated fails: for the unit circle and `num = -1` the increment is
`-2 π`, `yaw` stays below `2 π`, and no bound on the number of iterations lets
`sample(-1)` return. -/
theorem sample_terminates_counterexample :
    ¬ ∃ (fuel : ℕ) (pts : vec_Vecf 2), (⟨1, 0⟩ : Ellipsoid 2).sample fuel (-1) = some pts := by
  rintro ⟨fuel, pts, h⟩
  rw [sample_neg _ (-1) (by decide) fuel] at h
  exact Option.noConfusion h

/-! ## Further properties of the closest point and its hyperplane -/

/-- C13: for every point sequence `O`, empty or not, the anchor point of the
hyperplane returned by `closest_hyperplane(O)` is exactly `closest_point(O)`. -/
theorem closest_hyperplane_anchor (E : Ellipsoid Dim) (decimal_max : ℝ) (O : vec_Vecf Dim) :
    (E.closest_hyperplane decimal_max O).p_ = E.closest_point decimal_max O ∧
    (E.closest_hyperplane decimal_max []).p_ = E.closest_point decimal_max [] := by
  unfold closest_hyperplane
  exact ⟨rfl, rfl⟩

/-- A sequence that is a rearrangement of `p :: rest`, every point of `rest`
being strictly farther than `p`, has closest point `p` if `dist(p)` is below
`decimal_max` and the zero vector otherwise. -/
theorem closest_point_of_perm_cons (E : Ellipsoid Dim) (decimal_max : ℝ)
    (L rest : vec_Vecf Dim) (p : Vecf Dim) (hperm : L.Perm (p :: rest))
    (hrest : ∀ q ∈ rest, E.dist p < E.dist q) :
    E.closest_point decimal_max L = if E.dist p < decimal_max then p else 0 := by
  have hmem : p ∈ L := (hperm.mem_iff).2 (List.mem_cons_self _ _)
  obtain ⟨s, t, rfl⟩ := List.mem_iff_append.1 hmem
  have hst : (s ++ t).Perm rest := ((List.perm_middle.symm.trans hperm).cons_inv)
  have hs : ∀ q ∈ s, E.dist p < E.dist q :=
    fun q hq => hrest q ((hst.mem_iff).1 (List.mem_append_left _ hq))
  have ht : ∀ q ∈ t, E.dist p < E.dist q :=
    fun q hq => hrest q ((hst.mem_iff).1 (List.mem_append_right _ hq))
  by_cases hlt : E.dist p < decimal_max
  · rw [if_pos hlt]
    exact E.closest_point_eq_of_first_min decimal_max s t p hlt hs
      (fun q hq => le_of_lt (ht q hq))
  · rw [if_neg hlt]
    have hall : ∀ q ∈ s ++ p :: t, decimal_max ≤ E.dist q := by
      intro q hq
      rcases List.mem_append.1 hq with hq | hq
      · exact le_trans (not_lt.1 hlt) (le_of_lt (hs q hq))
      · rcases List.mem_cons.1 hq with rfl | hq
        · exact not_lt.1 hlt
        · exact le_trans (not_lt.1 hlt) (le_of_lt (ht q hq))
    unfold closest_point
    rw [E.closest_point_fold_unchanged _ (0, decimal_max) hall]

/-- A sequence is a rearrangement of its `i`-th element followed by the other
elements. -/
theorem perm_get_cons_eraseIdx {α : Type} (O : List α) (i : Fin O.length) :
    O.Perm (O.get i :: O.eraseIdx i) := by
  have h1 : O = O.take i ++ O.get i :: O.drop (i + 1) := by
    rw [List.get_eq_getElem, ← List.drop_eq_getElem_cons i.2, List.take_append_drop]
  rw [List.eraseIdx_eq_take_drop_succ]
  nth_rewrite 1 [h1]
  exact List.perm_middle

/-- C14: when exactly one element of `O` attains the minimum `dist`, the order
of the input is not significant: `closest_point(O') = closest_point(O)` for
every permutation `O'` of `O`. -/
theorem closest_point_perm (E : Ellipsoid Dim) (decimal_max : ℝ) (O O' : vec_Vecf Dim)
    (huniq : ∃ i : Fin O.length, ∀ j : Fin O.length, j ≠ i → E.dist (O.get i) < E.dist (O.get j))
    (hperm : O'.Perm O) :
    E.closest_point decimal_max O' = E.closest_point decimal_max O := by
  obtain ⟨i, hi⟩ := huniq
  have hO := perm_get_cons_eraseIdx O i
  have hrest : ∀ q ∈ O.eraseIdx i, E.dist (O.get i) < E.dist q := by
    intro q hq
    obtain ⟨j, hj, hne, rfl⟩ := List.mem_eraseIdx_iff_getElem.1 hq
    exact hi ⟨j, hj⟩ (fun h => hne (congrArg Fin.val h))
  rw [E.closest_point_of_perm_cons decimal_max O' _ _ (hperm.trans hO) hrest,
    E.closest_point_of_perm_cons decimal_max O _ _ hO hrest]

/-- Witness of C14: the unit disc, `O = [(2, 0), (1, 0)]` and its reversal. -/
theorem closest_point_perm_witness :
    (∃ i : Fin [(![2, 0] : Vecf 2), ![1, 0]].length,
      ∀ j : Fin [(![2, 0] : Vecf 2), ![1, 0]].length, j ≠ i →
        (⟨1, 0⟩ : Ellipsoid 2).dist ([(![2, 0] : Vecf 2), ![1, 0]].get i)
          < (⟨1, 0⟩ : Ellipsoid 2).dist ([(![2, 0] : Vecf 2), ![1, 0]].get j)) ∧
    [(![1, 0] : Vecf 2), ![2, 0]].Perm [(![2, 0] : Vecf 2), ![1, 0]] ∧
    (⟨1, 0⟩ : Ellipsoid 2).closest_point double_max [![1, 0], ![2, 0]]
      = (⟨1, 0⟩ : Ellipsoid 2).closest_point double_max [![2, 0], ![1, 0]] := by
  have d1 : (⟨1, 0⟩ : Ellipsoid 2).dist ![1, 0] = 1 := by
    rw [dist_unit]; simp
  have d2 : (⟨1, 0⟩ : Ellipsoid 2).dist ![2, 0] = 2 := by
    rw [dist_unit]
    simp only [Matrix.cons_val_zero, Matrix.cons_val_one, Matrix.head_cons, mul_zero, add_zero]
    exact Real.sqrt_mul_self (by norm_num)
  have huniq : ∃ i : Fin [(![2, 0] : Vecf 2), ![1, 0]].length,
      ∀ j : Fin [(![2, 0] : Vecf 2), ![1, 0]].length, j ≠ i →
        (⟨1, 0⟩ : Ellipsoid 2).dist ([(![2, 0] : Vecf 2), ![1, 0]].get i)
          < (⟨1, 0⟩ : Ellipsoid 2).dist ([(![2, 0] : Vecf 2), ![1, 0]].get j) := by
    refine ⟨⟨1, by decide⟩, ?_⟩
    intro j hj
    have hj0 : j = ⟨0, by decide⟩ := by
      apply Fin.ext
      have h1 : j.1 ≠ 1 := fun h => hj (Fin.ext h)
      have h2 : j.1 < 2 := j.2
      show j.1 = 0
      omega
    subst hj0
    show (⟨1, 0⟩ : Ellipsoid 2).dist ![1, 0] < (⟨1, 0⟩ : Ellipsoid 2).dist ![2, 0]
    rw [d1, d2]
    norm_num
  have hperm : [(![1, 0] : Vecf 2), ![2, 0]].Perm [(![2, 0] : Vecf 2), ![1, 0]] :=
    List.Perm.swap _ _ _
  exact ⟨huniq, hperm, closest_point_perm ⟨1, 0⟩ double_max _ _ huniq hperm⟩

/-- The direction computed for `p` has dot product `‖C⁻ᵀ (p - d)‖²` with `p - d`. -/
theorem hyperplane_direction_dot_self (E : Ellipsoid Dim) (p : Vecf Dim) :
    E.hyperplane_direction p ⬝ᵥ (p - E.d_) = squaredNorm ((E.C_⁻¹)ᵀ *ᵥ (p - E.d_)) := by
  unfold hyperplane_direction squaredNorm
  rw [← Matrix.mulVec_mulVec, dotProduct_comm, Matrix.dotProduct_mulVec,
    ← Matrix.mulVec_transpose]

/-- For invertible `C` and `p` different from the center, the direction computed
for `p` has a positive dot product with `p - d`. -/
theorem hyperplane_direction_dot_pos (E : Ellipsoid Dim) (hC : IsUnit E.C_.det)
    (p : Vecf Dim) (hp : p ≠ E.d_) : 0 < E.hyperplane_direction p ⬝ᵥ (p - E.d_) := by
  rw [hyperplane_direction_dot_self]
  have hdet : IsUnit ((E.C_⁻¹)ᵀ).det := by
    rw [Matrix.det_transpose]
    exact Matrix.isUnit_nonsing_inv_det_iff.2 hC
  have hinj := Matrix.mulVec_injective_iff_isUnit.2
    ((Matrix.isUnit_iff_isUnit_det _).2 hdet)
  have hne : (E.C_⁻¹)ᵀ *ᵥ (p - E.d_) ≠ 0 := by
    intro h0
    have h1 : (E.C_⁻¹)ᵀ *ᵥ (p - E.d_) = (E.C_⁻¹)ᵀ *ᵥ 0 := by
      rw [h0, Matrix.mulVec_zero]
    exact hp (sub_eq_zero.1 (hinj h1))
  exact lt_of_le_of_ne (squaredNorm_nonneg _)
    (fun h => hne ((squaredNorm_eq_zero _).1 h.symm))

/-- The norm of a non-zero vector is positive. -/
theorem Vecf.norm_pos {Dim : ℕ} (v : Vecf Dim) (hv : v ≠ 0) : 0 < norm v := by
  unfold norm
  exact Real.sqrt_pos.2 (lt_of_le_of_ne (squaredNorm_nonneg v)
    (fun h => hv ((squaredNorm_eq_zero v).1 h.symm)))

/-- In exact real arithmetic, for every ellipsoid with invertible `C`, symmetric
or not, and every `O` whose closest point `p = closest_point(O)` differs from
the center `d`, the center lies strictly on the inner side of the hyperplane
`(p, n)` returned by `closest_hyperplane(O)`: `n · (d - p) < 0`.  (In the
program the direction can cancel to the zero vector for `p ≠ d`.) -/
theorem closest_hyperplane_center_inner (E : Ellipsoid Dim) (decimal_max : ℝ)
    (O : vec_Vecf Dim) (hC : IsUnit E.C_.det) (hp : E.closest_point decimal_max O ≠ E.d_) :
    (E.closest_hyperplane decimal_max O).n_ ⬝ᵥ (E.d_ - (E.closest_hyperplane decimal_max O).p_)
      < 0 := by
  unfold closest_hyperplane
  simp only
  have hpos := E.hyperplane_direction_dot_pos hC _ hp
  have hnorm := Vecf.norm_pos _ (E.hyperplane_direction_ne_zero hC _ hp)
  have hneg : E.hyperplane_direction (E.closest_point decimal_max O)
      ⬝ᵥ (E.d_ - E.closest_point decimal_max O) < 0 := by
    have hsub : E.d_ - E.closest_point decimal_max O
        = -(E.closest_point decimal_max O - E.d_) := by
      rw [neg_sub]
    rw [hsub, dotProduct_neg]
    linarith
  rw [normalized_eq_smul, smul_dotProduct, smul_eq_mul]
  exact mul_neg_of_pos_of_neg (inv_pos.2 hnorm) hneg

/-- In exact real arithmetic, when `C` is symmetric, `closest_hyperplane` yields
a supporting hyperplane of the level set of `dist` through the closest point:
for `p = closest_point(O)` and the returned normal `n`, every `x` with
`dist(x) ≤ dist(p)` satisfies `n · (x - p) ≤ 0`.  (With the rounded `dist` and
normal of the program the inequality can fail by a rounding error.) -/
theorem closest_hyperplane_supporting_of_symm (E : Ellipsoid Dim) (decimal_max : ℝ)
    (O : vec_Vecf Dim) (x : Vecf Dim) (hsymm : E.C_.IsSymm)
    (hx : E.dist x ≤ E.dist (E.closest_point decimal_max O)) :
    (E.closest_hyperplane decimal_max O).n_ ⬝ᵥ (x - E.closest_point decimal_max O) ≤ 0 := by
  unfold closest_hyperplane
  simp only
  rw [normalized_eq_smul, smul_dotProduct, smul_eq_mul]
  exact mul_nonpos_of_nonneg_of_nonpos (inv_nonneg.2 (Vecf.norm_nonneg _))
    (E.hyperplane_direction_dot_le _ x (E.inv_comm_transpose_of_isSymm hsymm) hx)

theorem diag_ellipsoid_isSymm : diag_ellipsoid.C_.IsSymm := by
  unfold Matrix.IsSymm
  ext i j
  fin_cases i <;> fin_cases j <;> rfl

/-- C18: filtering first does not change the closest point.  For every `O`
whose `points_inside(O)` is not empty,
`closest_point(points_inside(O)) = closest_point(O)`, the same vector with the
same first-encountered tie-break, and therefore `closest_point(O)` satisfies
`inside` (the largest finite value `decimal_max` of the scalar type being
above 1, as it is for every floating-point type). -/
theorem closest_point_points_inside (E : Ellipsoid Dim) (decimal_max : ℝ) (O : vec_Vecf Dim)
    (hne : E.points_inside O ≠ []) :
    E.closest_point decimal_max (E.points_inside O) = E.closest_point decimal_max O ∧
    (1 < decimal_max → E.inside (E.closest_point decimal_max O) = true) := by
  rw [points_inside_eq_filter] at hne ⊢
  obtain ⟨q₀, hq₀⟩ := List.exists_mem_of_ne_nil _ hne
  have hq₀O : q₀ ∈ O := (List.mem_filter.1 hq₀).1
  have hq₀in : E.dist q₀ ≤ 1 := by
    have h := (List.mem_filter.1 hq₀).2
    unfold inside at h
    exact of_decide_eq_true h
  rcases E.closest_point_cases decimal_max O with ⟨hz, hall⟩ | ⟨l₁, p, l₂, hO, hr, hlt, h₁, h₂⟩
  · refine ⟨?_, ?_⟩
    · rw [hz]
      unfold closest_point
      rw [E.closest_point_fold_unchanged _ (0, decimal_max)
        (fun q hq => hall q (List.mem_filter.1 hq).1)]
    · intro hmax
      have := hall q₀ hq₀O
      linarith
  · have hmin : E.dist p ≤ E.dist q₀ := by
      rw [hO] at hq₀O
      rcases List.mem_append.1 hq₀O with hq | hq
      · exact le_of_lt (h₁ q₀ hq)
      · rcases List.mem_cons.1 hq with rfl | hq
        · exact le_refl _
        · exact h₂ q₀ hq
    have hin : E.inside p = true := by
      unfold inside
      exact decide_eq_true (le_trans hmin hq₀in)
    have hF : O.filter E.inside = l₁.filter E.inside ++ p :: l₂.filter E.inside := by
      rw [hO, List.filter_append, List.filter_cons, if_pos hin]
    rw [hr, hF]
    refine ⟨?_, fun _ => hin⟩
    exact E.closest_point_eq_of_first_min decimal_max _ _ p hlt
      (fun q hq => h₁ q (List.mem_filter.1 hq).1)
      (fun q hq => h₂ q (List.mem_filter.1 hq).1)

/-- Witness of C18: the unit disc and `O = [(2, 0), (1, 0), (0, 1)]`, whose
points inside are `(1, 0)` and `(0, 1)`, tied at `dist = 1`. -/
theorem closest_point_points_inside_witness :
    (⟨1, 0⟩ : Ellipsoid 2).points_inside [![2, 0], ![1, 0], ![0, 1]] ≠ [] ∧
    (⟨1, 0⟩ : Ellipsoid 2).closest_point double_max
        ((⟨1, 0⟩ : Ellipsoid 2).points_inside [![2, 0], ![1, 0], ![0, 1]])
      = (⟨1, 0⟩ : Ellipsoid 2).closest_point double_max [![2, 0], ![1, 0], ![0, 1]] ∧
    (⟨1, 0⟩ : Ellipsoid 2).inside
        ((⟨1, 0⟩ : Ellipsoid 2).closest_point double_max [![2, 0], ![1, 0], ![0, 1]])
      = true := by
  have hmax : (1 : ℝ) < double_max := by linarith [double_max_gt]
  have d1 : (⟨1, 0⟩ : Ellipsoid 2).dist ![1, 0] = 1 := by
    rw [dist_unit]; simp
  have hin : (⟨1, 0⟩ : Ellipsoid 2).inside ![1, 0] = true := by
    unfold inside
    exact decide_eq_true (le_of_eq d1)
  have hmem : (![1, 0] : Vecf 2)
      ∈ List.filter (⟨1, 0⟩ : Ellipsoid 2).inside [![2, 0], ![1, 0], ![0, 1]] :=
    List.mem_filter.2 ⟨by simp, hin⟩
  have hne : (⟨1, 0⟩ : Ellipsoid 2).points_inside [![2, 0], ![1, 0], ![0, 1]] ≠ [] := by
    rw [points_inside_eq_filter]
    exact List.ne_nil_of_mem hmem
  have h := closest_point_points_inside ⟨1, 0⟩ double_max [![2, 0], ![1, 0], ![0, 1]] hne
  exact ⟨hne, h.1, h.2 hmax⟩

end Ellipsoid

end Decomp
